import Mathlib

/-!
Verification of the matrix-inverse linear-regression notebook.

The program generates `x_vals = np.linspace(0, 10, 100)` and
`y_vals = x_vals + np.random.normal(0, 1, 100)`, builds the design matrix
`A = np.column_stack((x_vals_column, ones_column))` (column 0 holds the
x-values, column 1 holds ones, `ones_column` is built from
`np.repeat(1, 100)`), solves `solution = (Aᵀ A)⁻¹ Aᵀ y` using
`tf.matrix_inverse`, extracts `slope = solution_eval[0][0]` and
`y_intercept = solution_eval[1][0]`, prints the two report lines, renders
one plot, and finally creates a `tensorboard_logs/` directory and writes
a TensorFlow summary file into it.

All numeric arrays are embedded over `ℚ`.  The Gaussian noise drawn by
`np.random.normal` is modelled as an arbitrary sequence parameter `ε`,
and the literal arguments of that library call are recorded in
`normal_call`.  `tf.matrix_inverse` is modelled as a fallible operation
that surfaces a singular-matrix error (here: `none`) exactly on inputs
with zero determinant, matching the error the library's inversion kernel
raises on singular input; on invertible input it returns the true
inverse, which for the 2×2 matrix `Aᵀ A` is the adjugate divided by the
determinant.
-/

namespace InvMethod

open Matrix

/-- Determinant of a 2×2 matrix, the quantity whose vanishing makes the
inversion of `Aᵀ A` fail. -/
def det2 (M : Matrix (Fin 2) (Fin 2) ℚ) : ℚ :=
  M 0 0 * M 1 1 - M 0 1 * M 1 0

/-- Adjugate of a 2×2 matrix. -/
def adj2 (M : Matrix (Fin 2) (Fin 2) ℚ) : Matrix (Fin 2) (Fin 2) ℚ :=
  Matrix.of ![![M 1 1, -(M 0 1)], ![-(M 1 0), M 0 0]]

/-- Embedding of `tf.matrix_inverse` applied to the 2×2 matrix `Aᵀ A`
(source line 144): it fails with a singular-matrix error (`none`)
exactly when the determinant is zero, and otherwise returns the true
inverse `(det)⁻¹ • adjugate`. -/
def matrix_inverse (M : Matrix (Fin 2) (Fin 2) ℚ) :
    Option (Matrix (Fin 2) (Fin 2) ℚ) :=
  if det2 M = 0 then none else some ((det2 M)⁻¹ • adj2 M)

/-- Embedding of the design-matrix construction
`A = np.column_stack((x_vals_column, ones_column))` (source lines
100-103), parametric in the x-value sequence: column 0 holds the
x-values and column 1 holds ones. -/
def designMatrix {n : ℕ} (xs : Fin n → ℚ) : Matrix (Fin n) (Fin 2) ℚ :=
  Matrix.of fun i => ![xs i, 1]

/-- Embedding of the NormalEquationSolver (source lines 142-146):
`tA_A = matmul(Aᵀ, A)`, `tA_A_inv = tf.matrix_inverse(tA_A)`,
`product = matmul(tA_A_inv, Aᵀ)`, `solution = matmul(product, y)`.
The singular-matrix error of `tf.matrix_inverse` propagates as
`none`. -/
def solution {n : ℕ} (A : Matrix (Fin n) (Fin 2) ℚ) (y : Fin n → ℚ) :
    Option (Fin 2 → ℚ) :=
  let tA_A := Aᵀ * A
  (matrix_inverse tA_A).map fun tA_A_inv => (tA_A_inv * Aᵀ).mulVec y

/-- Squared residual norm `‖A x − y‖²` of a residual vector: the
quantity the least-squares solution minimizes. -/
def sumSq {n : ℕ} (v : Fin n → ℚ) : ℚ :=
  ∑ i, v i ^ 2

/-- Embedding of the best-fit line built by the ResultReporter (source
lines 195-197): `best_fit.append(slope*i + y_intercept)` for each `i`
in the x-values. -/
def best_fit {n : ℕ} (slope y_intercept : ℚ) (xs : Fin n → ℚ) :
    Fin n → ℚ :=
  fun i => slope * xs i + y_intercept

/-- The x-values of the DataGenerator, `np.linspace(0, 10, 100)`
(source line 83): the i-th of the 100 evenly spaced values over the
domain 0 to 10 is `i * (10 - 0) / (100 - 1)`. -/
def x_valsF : Fin 100 → ℚ := fun i => 10 * (i : ℕ) / 99

/-- The x-values as the length-100 array the program holds. -/
def x_vals : List ℚ := List.ofFn x_valsF

/-- The y-values `y_vals = x_vals + np.random.normal(0, 1, 100)`
(source line 84).  The noise drawn by the library call is the
parameter `ε`. -/
def y_valsF (ε : Fin 100 → ℚ) : Fin 100 → ℚ := fun i => x_valsF i + ε i

/-- Arguments of a `np.random.normal(mean, std, size)` call. -/
structure NormalCall where
  mean : ℚ
  std : ℚ
  size : ℕ

/-- The literal arguments of the noise call `np.random.normal(0, 1, 100)`
on source line 84: mean 0, standard deviation 1, 100 independent
draws. -/
def normal_call : NormalCall := ⟨0, 1, 100⟩

/-- The design matrix `A` of the actual run (source lines 100-103),
built from the generated x-values. -/
def A : Matrix (Fin 100) (Fin 2) ℚ := designMatrix x_valsF

/-- Embedding of `solution_eval = sess.run(solution)` (source line 162)
for the actual run: the evaluated solution vector.  It is only read on
runs where the solver did not fail, which is proved below. -/
def solution_eval (ε : Fin 100 → ℚ) : Fin 2 → ℚ :=
  (solution A (y_valsF ε)).getD 0

/-- `slope = solution_eval[0][0]` (source line 165). -/
def slope (ε : Fin 100 → ℚ) : ℚ := solution_eval ε 0

/-- `y_intercept = solution_eval[1][0]` (source line 166). -/
def y_intercept (ε : Fin 100 → ℚ) : ℚ := solution_eval ε 1

/-- The two console lines the program prints (source lines 191-192). -/
def run_console (ε : Fin 100 → ℚ) : List String :=
  ["slope: " ++ toString (slope ε),
    "y_intercept: " ++ toString (y_intercept ε)]

/-- Observable side effects a run can perform. -/
inductive Effect where
  | console (line : String)
  | plot
  | mkdir (path : String)
  | file_write (path : String)

/-- Classifier for the effects the spec allows: console output and plot
rendering. -/
def is_console_or_plot : Effect → Bool
  | Effect.console _ => true
  | Effect.plot => true
  | _ => false

/-- The ordered side effects of a complete run: the two prints (source
lines 191-192), the plot (source lines 224-228), then
`os.makedirs('tensorboard_logs/')` and the event file written by
`tf.summary.FileWriter('tensorboard_logs/', sess.graph)` (source lines
237-242). -/
def run_effects (ε : Fin 100 → ℚ) : List Effect :=
  [Effect.console ("slope: " ++ toString (slope ε)),
    Effect.console ("y_intercept: " ++ toString (y_intercept ε)),
    Effect.plot,
    Effect.mkdir ("tensorboard_logs/"),
    Effect.file_write ("tensorboard_logs/")]

/-- `np.repeat(1, 100)` (source line 102), the hard-coded length-100
column of ones, as a plain array. -/
def np_repeat (v : ℚ) (k : ℕ) : List ℚ := List.replicate k v

/-- Shape semantics of `np.column_stack` on two 1-column arrays (source
line 103): stacking succeeds only when the two columns have the same
length, otherwise numpy raises. -/
def column_stack (c1 c2 : List ℚ) : Option (List (ℚ × ℚ)) :=
  if c1.length = c2.length then some (c1.zip c2) else none

/-- Shape semantics of numpy elementwise `+` with broadcasting (source
line 84): the lengths must agree, or one of the operands must have
length 1; otherwise numpy raises. -/
def broadcast_add (a b : List ℚ) : Option (List ℚ) :=
  if a.length = b.length then some (List.zipWith (· + ·) a b)
  else if a.length = 1 then some (b.map fun y => a.headD 0 + y)
  else if b.length = 1 then some (a.map fun x => x + b.headD 0)
  else none

/-- The explicit 2×2 inverse is a right inverse when the determinant is
nonzero. -/
lemma mul_inv2 (M : Matrix (Fin 2) (Fin 2) ℚ) (hd : det2 M ≠ 0) :
    M * ((det2 M)⁻¹ • adj2 M) = 1 := by
  ext i j
  fin_cases i <;> fin_cases j <;>
    (simp [Matrix.mul_apply, Fin.sum_univ_two, adj2, Matrix.one_apply]
     field_simp
     simp [det2] at hd ⊢
     ring_nf
     try linear_combination (1 : ℚ))

/-- The explicit 2×2 inverse is a left inverse when the determinant is
nonzero. -/
lemma inv2_mul (M : Matrix (Fin 2) (Fin 2) ℚ) (hd : det2 M ≠ 0) :
    ((det2 M)⁻¹ • adj2 M) * M = 1 := by
  ext i j
  fin_cases i <;> fin_cases j <;>
    (simp [Matrix.mul_apply, Fin.sum_univ_two, adj2, Matrix.one_apply]
     field_simp
     simp [det2] at hd ⊢
     ring_nf
     try linear_combination (1 : ℚ))

/-- Transport of a dot product through the design matrix. -/
lemma dot_mulVec_eq {n : ℕ} (A : Matrix (Fin n) (Fin 2) ℚ)
    (d : Fin 2 → ℚ) (r : Fin n → ℚ) :
    A.mulVec d ⬝ᵥ r = d ⬝ᵥ Aᵀ.mulVec r := by
  simp only [Matrix.mulVec, Matrix.dotProduct, Matrix.transpose_apply,
    Finset.sum_mul, Finset.mul_sum]
  rw [Finset.sum_comm]
  refine Finset.sum_congr rfl fun j _ => Finset.sum_congr rfl fun i _ => by ring

lemma sumSq_eq_dot {n : ℕ} (v : Fin n → ℚ) : sumSq v = v ⬝ᵥ v := by
  simp [sumSq, Matrix.dotProduct, sq]

lemma sumSq_nonneg {n : ℕ} (v : Fin n → ℚ) : 0 ≤ sumSq v :=
  Finset.sum_nonneg fun i _ => sq_nonneg _

lemma sumSq_eq_zero {n : ℕ} (v : Fin n → ℚ) (h : sumSq v = 0) : v = 0 := by
  funext i
  have h2 := (Finset.sum_eq_zero_iff_of_nonneg
    (fun j _ => sq_nonneg (v j))).1 h i (Finset.mem_univ i)
  exact pow_eq_zero_iff two_ne_zero |>.1 h2

lemma ker_aux1 (a b c d : ℚ) (hd : a * d - b * c = 0) :
    (Matrix.of ![![a, b], ![c, d]]).mulVec ![b, -a] = 0 := by
  funext i
  fin_cases i <;>
    (simp [Matrix.mulVec, Matrix.dotProduct, Fin.sum_univ_two]
     first
       | ring1
       | linear_combination hd
       | linear_combination -hd)

lemma ker_aux2 (a b c d : ℚ) (hd : a * d - b * c = 0) :
    (Matrix.of ![![a, b], ![c, d]]).mulVec ![d, -c] = 0 := by
  funext i
  fin_cases i <;>
    (simp [Matrix.mulVec, Matrix.dotProduct, Fin.sum_univ_two]
     first
       | ring1
       | linear_combination hd
       | linear_combination -hd)

/-- A 2×2 matrix with zero determinant has a nonzero kernel vector. -/
lemma exists_kernel_of_det2_eq_zero (M : Matrix (Fin 2) (Fin 2) ℚ)
    (hd : det2 M = 0) : ∃ c : Fin 2 → ℚ, c ≠ 0 ∧ M.mulVec c = 0 := by
  simp only [det2] at hd
  by_cases h1 : (![M 0 1, -(M 0 0)] : Fin 2 → ℚ) = 0
  · by_cases h2 : (![M 1 1, -(M 1 0)] : Fin 2 → ℚ) = 0
    · have e01 : M 0 1 = 0 := congrFun h1 0
      have e00 : M 0 0 = 0 := by have := congrFun h1 1; simpa using this
      have e11 : M 1 1 = 0 := congrFun h2 0
      have e10 : M 1 0 = 0 := by have := congrFun h2 1; simpa using this
      refine ⟨![1, 0], ?_, ?_⟩
      · intro h; have := congrFun h 0; simp at this
      · rw [Matrix.eta_fin_two M, e00, e01, e10, e11]
        funext i
        fin_cases i <;> simp [Matrix.mulVec, Matrix.dotProduct, Fin.sum_univ_two]
    · refine ⟨![M 1 1, -(M 1 0)], h2, ?_⟩
      rw [Matrix.eta_fin_two M]
      exact ker_aux2 (M 0 0) (M 0 1) (M 1 0) (M 1 1) hd
  · refine ⟨![M 0 1, -(M 0 0)], h1, ?_⟩
    rw [Matrix.eta_fin_two M]
    exact ker_aux1 (M 0 0) (M 0 1) (M 1 0) (M 1 1) hd

/-- If the design matrix annihilates no nonzero coefficient vector, its
Gram matrix `Aᵀ A` has nonzero determinant. -/
lemma det2_ne_zero_of_inj {n : ℕ} (A : Matrix (Fin n) (Fin 2) ℚ)
    (hinj : ∀ c : Fin 2 → ℚ, A.mulVec c = 0 → c = 0) :
    det2 (Aᵀ * A) ≠ 0 := by
  intro hd
  obtain ⟨c, hc0, hMc⟩ := exists_kernel_of_det2_eq_zero _ hd
  have hAc : A.mulVec c = 0 := by
    have h1 : c ⬝ᵥ (Aᵀ * A).mulVec c = 0 := by
      rw [hMc]; simp [Matrix.dotProduct]
    have h2 : c ⬝ᵥ (Aᵀ * A).mulVec c = A.mulVec c ⬝ᵥ A.mulVec c := by
      rw [← Matrix.mulVec_mulVec, ← dot_mulVec_eq]
    apply sumSq_eq_zero
    rw [sumSq_eq_dot, ← h2, h1]
  exact hc0 (hinj c hAc)

/-- Linear independence of the columns of `A` (the rows of `Aᵀ`) gives
injectivity of `A` on coefficient vectors. -/
lemma li_imp_inj {n : ℕ} (A : Matrix (Fin n) (Fin 2) ℚ)
    (h : LinearIndependent ℚ Aᵀ) :
    ∀ c : Fin 2 → ℚ, A.mulVec c = 0 → c = 0 := by
  intro c hc
  have hsum : (∑ j, c j • Aᵀ j) = 0 := by
    funext i
    have h3 : (∑ j, c j • Aᵀ j) i = A.mulVec c i := by
      simp [Finset.sum_apply, Matrix.mulVec, Matrix.dotProduct,
        Matrix.transpose_apply, mul_comm]
    rw [h3, hc]
  have h2 := Fintype.linearIndependent_iff.mp h c hsum
  funext i
  exact h2 i

/-- Converse glue: injectivity of `A` on coefficient vectors gives
linear independence of its columns. -/
lemma li_of_inj {n : ℕ} (A : Matrix (Fin n) (Fin 2) ℚ)
    (hinj : ∀ c : Fin 2 → ℚ, A.mulVec c = 0 → c = 0) :
    LinearIndependent ℚ Aᵀ := by
  refine Fintype.linearIndependent_iff.mpr fun g hg => ?_
  have hAg : A.mulVec g = 0 := by
    funext i
    have h3 : (∑ j, g j • Aᵀ j) i = A.mulVec g i := by
      simp [Finset.sum_apply, Matrix.mulVec, Matrix.dotProduct,
        Matrix.transpose_apply, mul_comm]
    rw [← h3, hg]
  intro j
  rw [hinj g hAg]
  rfl

/-- Closed form of the solver on a nonsingular Gram matrix. -/
lemma solution_eq {n : ℕ} (A : Matrix (Fin n) (Fin 2) ℚ) (y : Fin n → ℚ)
    (hd : det2 (Aᵀ * A) ≠ 0) :
    solution A y =
      some ((((det2 (Aᵀ * A))⁻¹ • adj2 (Aᵀ * A)) * Aᵀ).mulVec y) := by
  simp [solution, matrix_inverse, hd]

/-- The returned vector satisfies the normal equations
`Aᵀ A sol = Aᵀ y`. -/
lemma normal_equation {n : ℕ} (A : Matrix (Fin n) (Fin 2) ℚ) (y : Fin n → ℚ)
    (hd : det2 (Aᵀ * A) ≠ 0) (sol : Fin 2 → ℚ)
    (hsol : solution A y = some sol) :
    (Aᵀ * A).mulVec sol = Aᵀ.mulVec y := by
  have heq := solution_eq A y hd
  rw [hsol] at heq
  have hs := Option.some.inj heq
  rw [hs, Matrix.mulVec_mulVec, ← Matrix.mul_assoc,
    mul_inv2 _ hd, Matrix.one_mul]

/-- A design matrix built from a nonconstant x-sequence annihilates no
nonzero coefficient vector. -/
lemma inj_of_nonconstant {n : ℕ} (xs : Fin n → ℚ) (i j : Fin n)
    (hne : xs i ≠ xs j) :
    ∀ c : Fin 2 → ℚ, (designMatrix xs).mulVec c = 0 → c = 0 := by
  intro c hc
  have hk : ∀ k, xs k * c 0 + c 1 = 0 := by
    intro k
    have h4 := congrFun hc k
    simpa [designMatrix, Matrix.mulVec, Matrix.dotProduct, Fin.sum_univ_two]
      using h4
  have h0 : c 0 = 0 := by
    have hi := hk i
    have hj := hk j
    have hsub : (xs i - xs j) * c 0 = 0 := by linear_combination hi - hj
    rcases mul_eq_zero.mp hsub with h | h
    · exact absurd (sub_eq_zero.mp h) hne
    · exact h
  have h1 : c 1 = 0 := by
    have hi := hk i
    rw [h0] at hi
    linarith
  funext k
  fin_cases k <;> assumption

/-- The generated x-values are not constant. -/
lemma x_vals_nonconstant : x_valsF 0 ≠ x_valsF 1 := by
  norm_num [x_valsF]

/-- The Gram matrix of the actual run is nonsingular, so the solver
does not fail on the run, whatever the drawn noise. -/
lemma run_det_ne_zero : det2 (Aᵀ * A) ≠ 0 :=
  det2_ne_zero_of_inj _ (inj_of_nonconstant x_valsF 0 1 x_vals_nonconstant)

/-- The run's solver output is `some (solution_eval ε)`. -/
lemma run_solution_eq (ε : Fin 100 → ℚ) :
    solution A (y_valsF ε) = some (solution_eval ε) := by
  rw [solution_eq _ _ run_det_ne_zero]
  unfold solution_eval
  rw [solution_eq _ _ run_det_ne_zero]
  rfl

/-- Claim C1: for every design matrix `A` with linearly independent
columns and every target vector `y`, the vector returned by the
NormalEquationSolver, computed as `(Aᵀ A)⁻¹ Aᵀ y`, minimizes the squared
residual norm `‖A x − y‖²` over all coefficient vectors `x`. -/
theorem solution_minimizes {n : ℕ} (A : Matrix (Fin n) (Fin 2) ℚ)
    (y : Fin n → ℚ) (hA : LinearIndependent ℚ Aᵀ) :
    ∃ sol : Fin 2 → ℚ, solution A y = some sol ∧
      ∀ x : Fin 2 → ℚ, sumSq (A.mulVec sol - y) ≤ sumSq (A.mulVec x - y) := by
  have hd : det2 (Aᵀ * A) ≠ 0 := det2_ne_zero_of_inj A (li_imp_inj A hA)
  refine ⟨_, solution_eq A y hd, ?_⟩
  set sol := (((det2 (Aᵀ * A))⁻¹ • adj2 (Aᵀ * A)) * Aᵀ).mulVec y with hsoldef
  intro x
  have hne := normal_equation A y hd sol (solution_eq A y hd)
  have horth : A.mulVec (x - sol) ⬝ᵥ (A.mulVec sol - y) = 0 := by
    rw [dot_mulVec_eq]
    have hz : Aᵀ.mulVec (A.mulVec sol - y) = 0 := by
      rw [Matrix.mulVec_sub, Matrix.mulVec_mulVec, hne, sub_self]
    rw [hz, Matrix.dotProduct_zero]
  have key : A.mulVec x - y = A.mulVec (x - sol) + (A.mulVec sol - y) := by
    rw [Matrix.mulVec_sub]
    abel
  rw [key, sumSq_eq_dot, sumSq_eq_dot]
  rw [Matrix.add_dotProduct, Matrix.dotProduct_add, Matrix.dotProduct_add,
    horth, Matrix.dotProduct_comm (A.mulVec sol - y) (A.mulVec (x - sol)), horth]
  have hnn : 0 ≤ A.mulVec (x - sol) ⬝ᵥ A.mulVec (x - sol) := by
    rw [← sumSq_eq_dot]; exact sumSq_nonneg _
  linarith

/-- Witness for claim C1 at the concrete design matrix over
x-values `[0, 1]` and target `[5, 6]`. -/
theorem solution_minimizes_witness :
    LinearIndependent ℚ (designMatrix (![0, 1] : Fin 2 → ℚ))ᵀ ∧
      ∃ sol : Fin 2 → ℚ,
        solution (designMatrix (![0, 1] : Fin 2 → ℚ)) ![5, 6] = some sol ∧
          ∀ x : Fin 2 → ℚ,
            sumSq ((designMatrix (![0, 1] : Fin 2 → ℚ)).mulVec sol - ![5, 6]) ≤
              sumSq ((designMatrix (![0, 1] : Fin 2 → ℚ)).mulVec x - ![5, 6]) := by
  have hne : (![0, 1] : Fin 2 → ℚ) 0 ≠ ![0, 1] 1 := by norm_num
  have hLI := li_of_inj _ (inj_of_nonconstant (![0, 1] : Fin 2 → ℚ) 0 1 hne)
  exact ⟨hLI, solution_minimizes (designMatrix ![0, 1]) ![5, 6] hLI⟩

/-- Claim C2: if the x-sequence is constant, so that `Aᵀ A` is singular,
the NormalEquationSolver surfaces the singular-matrix error rather than
returning a coefficient vector. -/
theorem singular_error {n : ℕ} (xs : Fin n → ℚ) (c : ℚ)
    (hc : ∀ i, xs i = c) (y : Fin n → ℚ) :
    solution (designMatrix xs) y = none := by
  have hd : det2 ((designMatrix xs)ᵀ * designMatrix xs) = 0 := by
    simp [det2, designMatrix, Matrix.mul_apply, Fin.sum_univ_two, hc,
      Finset.sum_const, Finset.card_univ]
    ring
  simp [solution, matrix_inverse, hd]

/-- Witness for claim C2 at the constant x-sequence `5, 5, 5`. -/
theorem singular_error_witness :
    (∀ i : Fin 3, (fun _ : Fin 3 => (5 : ℚ)) i = 5) ∧
      solution (designMatrix fun _ : Fin 3 => (5 : ℚ)) (fun _ => 0) = none :=
  ⟨fun _ => rfl, singular_error (fun _ : Fin 3 => (5 : ℚ)) 5 (fun _ => rfl) _⟩

/-- Counterexample to claim C3: the run performs an effect that is
neither console output nor plot rendering — it writes the TensorFlow
summary file under `tensorboard_logs/`. -/
theorem run_writes_files_counterexample :
    ¬ ∀ e ∈ run_effects (fun _ => 0), is_console_or_plot e = true := by
  intro h
  have hm : Effect.file_write ("tensorboard_logs/") ∈ run_effects (fun _ => 0) := by
    simp [run_effects]
  have h2 := h _ hm
  simp [is_console_or_plot] at h2

/-- Claim C3 as amended: beyond console output and plot rendering, the
only side effects of a complete run are creating the
`tensorboard_logs/` directory and writing the TensorFlow summary file
into it. -/
theorem run_effects_classified (ε : Fin 100 → ℚ) (e : Effect)
    (he : e ∈ run_effects ε) :
    is_console_or_plot e = true ∨ e = Effect.mkdir ("tensorboard_logs/") ∨
      e = Effect.file_write ("tensorboard_logs/") := by
  simp only [run_effects, List.mem_cons, List.not_mem_nil, or_false] at he
  rcases he with rfl | rfl | rfl | rfl | rfl
  · left; rfl
  · left; rfl
  · left; rfl
  · right; left; rfl
  · right; right; rfl

/-- Witness for the amended claim C3 at the plot effect of a concrete
run. -/
theorem run_effects_classified_witness :
    Effect.plot ∈ run_effects (fun _ => 0) ∧
      (is_console_or_plot Effect.plot = true ∨
        Effect.plot = Effect.mkdir ("tensorboard_logs/") ∨
        Effect.plot = Effect.file_write ("tensorboard_logs/")) :=
  ⟨by simp [run_effects],
    run_effects_classified (fun _ => 0) Effect.plot (by simp [run_effects])⟩

/-- Claim C4: for every slope `m` and intercept `b`, running the solver
on noiseless data `y k = m * xs k + b` over a nonconstant x-sequence
returns exactly the coefficient vector `[m, b]`. -/
theorem round_trip {n : ℕ} (xs : Fin n → ℚ) (m b : ℚ) (i j : Fin n)
    (hne : xs i ≠ xs j) :
    solution (designMatrix xs) (fun k => m * xs k + b) = some ![m, b] := by
  have hd : det2 ((designMatrix xs)ᵀ * designMatrix xs) ≠ 0 :=
    det2_ne_zero_of_inj _ (inj_of_nonconstant xs i j hne)
  have hy : (fun k => m * xs k + b) = (designMatrix xs).mulVec ![m, b] := by
    funext k
    simp [designMatrix, Matrix.mulVec, Matrix.dotProduct, Fin.sum_univ_two]
    ring
  rw [solution_eq _ _ hd, hy]
  congr 1
  rw [Matrix.mulVec_mulVec, Matrix.mul_assoc, inv2_mul _ hd, Matrix.one_mulVec]

/-- Witness for claim C4: fitting `y = 2 x + 3` over x-values `[0, 1]`
recovers `[2, 3]`. -/
theorem round_trip_witness :
    (![0, 1] : Fin 2 → ℚ) 0 ≠ ![0, 1] 1 ∧
      solution (designMatrix (![0, 1] : Fin 2 → ℚ))
        (fun k => 2 * ![0, 1] k + 3) = some ![2, 3] := by
  have hne : (![0, 1] : Fin 2 → ℚ) 0 ≠ ![0, 1] 1 := by norm_num
  exact ⟨hne, round_trip (![0, 1] : Fin 2 → ℚ) 2 3 0 1 hne⟩

/-- Claim C5: the solution vector of the run is the 2-vector
`[slope, y_intercept]` in that order — component 0 is the slope and
component 1 the intercept — and reading them that way reproduces the
fitted line `A · sol` of the design matrix whose column 0 is the
x-values and column 1 is ones. -/
theorem solution_vector_slope_y_intercept (ε : Fin 100 → ℚ) :
    solution A (y_valsF ε) = some ![slope ε, y_intercept ε] ∧
      best_fit (slope ε) (y_intercept ε) x_valsF =
        A.mulVec ![slope ε, y_intercept ε] := by
  constructor
  · rw [run_solution_eq ε]
    congr 1
    funext k
    fin_cases k <;> simp [slope, y_intercept]
  · funext i
    simp [best_fit, A, designMatrix, Matrix.mulVec, Matrix.dotProduct,
      Fin.sum_univ_two]
    ring

/-- Claim C6: on the concrete input `x = [0,1,2,3]`, `y = [0,1,2,3]`,
the solver returns slope 1 and intercept 0. -/
theorem concrete_linear_fit :
    solution (designMatrix (![0, 1, 2, 3] : Fin 4 → ℚ)) ![0, 1, 2, 3] =
      some ![1, 0] := by
  have hd : det2 ((designMatrix (![0, 1, 2, 3] : Fin 4 → ℚ))ᵀ *
      designMatrix ![0, 1, 2, 3]) = 20 := by
    simp [det2, designMatrix, Matrix.mul_apply, Fin.sum_univ_four]
    norm_num
  simp [solution, matrix_inverse, hd]
  funext j
  fin_cases j <;>
    simp [adj2, designMatrix, Matrix.mulVec, Matrix.vecMul, Matrix.mul_apply,
      Matrix.dotProduct, Matrix.transpose_apply, Fin.sum_univ_four,
      Fin.sum_univ_two] <;> norm_num

/-- Claim C7: the solver is deterministic — two calls on identical
inputs yield identical outputs. -/
theorem solver_deterministic {n : ℕ} (A1 A2 : Matrix (Fin n) (Fin 2) ℚ)
    (y1 y2 : Fin n → ℚ) (hA : A1 = A2) (hy : y1 = y2) :
    solution A1 y1 = solution A2 y2 := by
  rw [hA, hy]

/-- Witness for claim C7 at a concrete pair of identical calls. -/
theorem solver_deterministic_witness :
    designMatrix (![0, 1] : Fin 2 → ℚ) = designMatrix ![0, 1] ∧
      (![1, 2] : Fin 2 → ℚ) = ![1, 2] ∧
      solution (designMatrix (![0, 1] : Fin 2 → ℚ)) ![1, 2] =
        solution (designMatrix ![0, 1]) ![1, 2] :=
  ⟨rfl, rfl, solver_deterministic _ _ _ _ rfl rfl⟩

/-- Claim C8: the DataGenerator produces exactly 100 x-values,
deterministic (`x_vals` is a fixed closed form) and evenly spaced over
the domain 0 to 10 (first value 0, last value 10, constant gap
`10/99`), and 100 y-values each equal to the corresponding x-value plus
the corresponding draw of the noise source, whose recorded call is
`np.random.normal` with mean 0, standard deviation 1 and 100
independent draws. -/
theorem data_generator_spec :
    x_vals.length = 100 ∧
      x_valsF 0 = 0 ∧ x_valsF 99 = 10 ∧
      (∀ i : Fin 99, x_valsF i.succ - x_valsF i.castSucc = 10 / 99) ∧
      (∀ ε : Fin 100 → ℚ, (List.ofFn (y_valsF ε)).length = 100 ∧
        ∀ i, y_valsF ε i = x_valsF i + ε i) ∧
      normal_call.mean = 0 ∧ normal_call.std = 1 ∧ normal_call.size = 100 := by
  refine ⟨List.length_ofFn x_valsF, by norm_num [x_valsF], ?_, ?_, ?_, rfl, rfl, rfl⟩
  · have h : ((99 : Fin 100) : ℕ) = 99 := rfl
    simp only [x_valsF, h]
    norm_num
  · intro i
    simp only [x_valsF, Fin.val_succ, Fin.coe_castSucc]
    push_cast
    ring
  · exact fun ε => ⟨List.length_ofFn (y_valsF ε), fun i => rfl⟩

/-- Claim C9: on every run the console output is exactly two lines, the
first of the form `slope: <value>` and the second of the form
`y_intercept: <value>`, where the printed values are the two components
the ResultReporter extracted from the solver's output. -/
theorem console_output_form (ε : Fin 100 → ℚ) :
    ∃ sol : Fin 2 → ℚ, solution A (y_valsF ε) = some sol ∧
      run_console ε =
        ["slope: " ++ toString (sol 0), "y_intercept: " ++ toString (sol 1)] ∧
      (run_console ε).length = 2 :=
  ⟨solution_eval ε, run_solution_eq ε, rfl, rfl⟩

/-- Claim C10: the pipeline is only well-defined for x-sequences of
exactly 100 elements — for any other length, building the design matrix
(column-stacking against the hard-coded `np.repeat(1, 100)` ones
column) or building the y-values (broadcasting against the hard-coded
100 noise draws) fails rather than producing a result. -/
theorem pipeline_requires_length_100 (xs noise : List ℚ)
    (hnoise : noise.length = 100) (hxs : xs.length ≠ 100) :
    column_stack xs (np_repeat 1 100) = none ∨
      broadcast_add xs noise = none := by
  left
  simp [column_stack, np_repeat, hxs]

/-- Witness for claim C10 at the empty x-sequence. -/
theorem pipeline_requires_length_100_witness :
    (np_repeat 0 100).length = 100 ∧ ([] : List ℚ).length ≠ 100 ∧
      (column_stack [] (np_repeat 1 100) = none ∨
        broadcast_add [] (np_repeat 0 100) = none) := by
  refine ⟨?_, ?_, pipeline_requires_length_100 [] (np_repeat 0 100) ?_ ?_⟩ <;>
    simp [np_repeat]

end InvMethod
